import Mathlib

/-!
# Verification of the consensus core of `decentralized-ai-child`

Shallow embedding of the consensus-and-rule-evolution engine:

* `src/core/consensus.py` — `Block`, `Consensus` (block creation,
  quorum-gated validation, rejection, hash chaining);
* `src/core/evolutionary_consensus.py` — `ConsensusProposal`,
  `EvolutionaryConsensus` (proposal gates, reputation smoothing,
  fitness-sorted rule evolution);
* `src/core/gemma_node.py` — the node-side change sanity check
  (`_validate_changes`, `validate_changes`, `learn_from_experience`).

Python `datetime.now()` is modelled by an explicit `Nat` timestamp supplied
by the environment, `hashlib.sha256(...).hexdigest()` by an abstract
function `hashFn : String → String` over which theorems quantify (its only
role in the verified properties is as an opaque digest of the block data
string), floats by `Rat` (exact real arithmetic, the spec's reading of the
numeric formulas), and Python dicts by association lists in insertion
order, with first-match lookup, in-place overwrite for present keys and
append for fresh keys — exactly the observable behaviour of a `dict`.
-/

/- `Rat` arithmetic is sealed behind `@[irreducible]` upstream; reopening it
locally lets concrete states of the embedded system evaluate by kernel
reduction (`decide`/`rfl`), keeping every definition executable. -/
attribute [local semireducible] Rat.add Rat.mul Rat.ofScientific Rat.inv Rat.sub

set_option maxRecDepth 100000

/-- Values storable in a `changes` payload (Python `Dict[str, Any]` as used
by the core: strings, numbers and nested dicts). -/
inductive Val where
  | str : String → Val
  | num : Rat → Val
  | dict : List (String × Val) → Val

/-- First-match lookup in an association list, the observable behaviour of
`d[k]` / `d.get(k)` on a Python dict. -/
def dlookup (d : List (String × Val)) (k : String) : Option Val :=
  (d.find? (fun kv => kv.1 == k)).map (fun kv => kv.2)

/-- A changes payload: a Python dict at the top level. -/
def Changes : Type := List (String × Val)

mutual

/-- Serialization of a `Val`, standing in for Python's `str(...)` inside the
hashed block-data string. The exact format is irrelevant to every verified
property (the digest function is abstract); only its existence matters. -/
def strVal : Val → String
  | .str s => s
  | .num q => toString q
  | .dict d => strKVs d

/-- Serialization of a dict's key-value pairs. -/
def strKVs : List (String × Val) → String
  | [] => ""
  | kv :: rest => kv.1 ++ strVal kv.2 ++ strKVs rest

end

/-- `str(changes)` for the block-data string. -/
def strChanges (c : Changes) : String :=
  strKVs c

/-- `Block` (src/core/consensus.py, class `Block`): one change-block of the
append-only ledger. -/
structure Block where
  timestamp : Nat
  node_id : String
  changes : Changes
  previous_hash : String
  hash : String
  validators : List String
  status : String

/-- `Consensus` (src/core/consensus.py): ledger plus validator registry. -/
structure Consensus where
  min_validators : Nat
  blocks : List Block
  validators : List String

/-- `Consensus.__init__(min_validators)`. -/
def Consensus.init (min_validators : Nat) : Consensus :=
  { min_validators := min_validators, blocks := [], validators := [] }

/-- The 64-character zero-string sentinel `"0" * 64`. -/
def zeroHash : String :=
  String.mk (List.replicate 64 '0')

/-- `Consensus.add_validator`. -/
def Consensus.add_validator (c : Consensus) (node_id : String) : Consensus :=
  if c.validators.contains node_id then c
  else { c with validators := c.validators ++ [node_id] }

/-- `Consensus.create_block(node_id, changes)`: previous hash from the last
ledger entry (zero sentinel on an empty ledger), digest of the concatenated
block data, fresh block appended with empty validator list and status
`"pending"`. Returns the updated state and the new block. -/
def Consensus.create_block (hashFn : String → String) (c : Consensus)
    (timestamp : Nat) (node_id : String) (changes : Changes) :
    Consensus × Block :=
  let previous_hash :=
    match c.blocks.getLast? with
    | some b => b.hash
    | none => zeroHash
  let block_data := toString timestamp ++ node_id ++ strChanges changes ++ previous_hash
  let block_hash := hashFn block_data
  let block : Block :=
    { timestamp := timestamp, node_id := node_id, changes := changes,
      previous_hash := previous_hash, hash := block_hash,
      validators := [], status := "pending" }
  ({ c with blocks := c.blocks ++ [block] }, block)

/-- Find the first block with the given hash and mutate it in place — the
effect of Python's `next((b for b in self.blocks if b.hash == block_hash),
None)` followed by attribute assignment on the found object. Returns the
updated ledger and the result of the per-block action (`false` when no
block matches, as in the `if not block: return False` path). -/
def updateBlock (block_hash : String) (f : Block → Block × Bool) :
    List Block → List Block × Bool
  | [] => ([], false)
  | b :: rest =>
    if b.hash == block_hash then
      let r := f b
      (r.1 :: rest, r.2)
    else
      let r := updateBlock block_hash f rest
      (b :: r.1, r.2)

/-- The per-block body of `Consensus.validate_block`: skip validators that
are already recorded; otherwise append the validator and, once
`min_validators` is reached, flip the status to `"validated"` and report
success. Note that the Python code never inspects `status` here. -/
def validateStep (min_validators : Nat) (validator_id : String) (b : Block) :
    Block × Bool :=
  if b.validators.contains validator_id then (b, false)
  else
    let b2 := { b with validators := b.validators ++ [validator_id] }
    if min_validators ≤ b2.validators.length then
      ({ b2 with status := "validated" }, true)
    else (b2, false)

/-- `Consensus.validate_block(block_hash, validator_id)`. -/
def Consensus.validate_block (c : Consensus) (block_hash validator_id : String) :
    Consensus × Bool :=
  let r := updateBlock block_hash (validateStep c.min_validators validator_id) c.blocks
  ({ c with blocks := r.1 }, r.2)

/-- `Consensus.reject_block(block_hash)`: set the status of the first block
with that hash to `"rejected"` (no-op when absent). -/
def Consensus.reject_block (c : Consensus) (block_hash : String) : Consensus :=
  { c with
    blocks := (updateBlock block_hash (fun b => ({ b with status := "rejected" }, true)) c.blocks).1 }

/-- `Consensus.get_validated_changes`. -/
def Consensus.get_validated_changes (c : Consensus) : List Changes :=
  (c.blocks.filter (fun b => b.status == "validated")).map (fun b => b.changes)

/-- `Consensus.get_pending_changes`. -/
def Consensus.get_pending_changes (c : Consensus) : List Changes :=
  (c.blocks.filter (fun b => b.status == "pending")).map (fun b => b.changes)

/-- Hash-chain well-formedness from an expected predecessor hash: each
block's `previous_hash` must equal the hash of the block before it (the
argument), and the expectation advances to the block's own `hash`. -/
def chainAux (prev : String) : List Block → Bool
  | [] => true
  | b :: rest => (b.previous_hash == prev) && chainAux b.hash rest

/-- Hash-chain integrity of a ledger: the first block's `previous_hash` is
the zero sentinel, every later block's `previous_hash` is the previous
block's `hash`. -/
def chainOk (blocks : List Block) : Bool :=
  chainAux zeroHash blocks

/-- Ledger states reachable from a fresh `Consensus` by any sequence of
`create_block`, `validate_block` and `reject_block` calls, for a fixed
digest function. -/
inductive Reachable (hashFn : String → String) : Consensus → Prop where
  | init : ∀ mv, Reachable hashFn (Consensus.init mv)
  | create : ∀ c t n ch, Reachable hashFn c →
      Reachable hashFn (c.create_block hashFn t n ch).1
  | validate : ∀ c h v, Reachable hashFn c →
      Reachable hashFn (c.validate_block h v).1
  | reject : ∀ c h, Reachable hashFn c →
      Reachable hashFn (c.reject_block h)

/-! ## Node-side change sanity check (src/core/gemma_node.py)

The ML parts of `GemmaNode` (model loading, fine-tuning, weight download)
call external libraries (torch/transformers) and are outside the core; the
embedded fragment is the pure decision logic that touches the consensus:
`_validate_changes`, the voting wrapper `validate_changes`, and the ledger
effect of `learn_from_experience` (which receives the externally computed
model-updates dict as an argument). -/

/-- `metrics.get("learning_rate", 0)`: numeric lookup with default. The
payloads built by `_get_model_updates` store floats here; a non-numeric
value would make Python's `>` comparison raise, which no claim exercises. -/
def numGet (d : List (String × Val)) (k : String) (default : Rat) : Rat :=
  match dlookup d k with
  | some (.num q) => q
  | _ => default

/-- `max(d.values())` over a numeric dict. Python's `max` raises on an empty
sequence; the check is only reached on the nonempty dicts that
`_get_model_updates` builds, so the empty case (returning 0 here) is never
exercised by a claim. -/
def maxValues (d : List (String × Val)) : Rat :=
  match d with
  | [] => 0
  | kv :: rest => (rest.map (fun x => numGet [("v", x.2)] "v" 0)).foldl max (numGet [("v", kv.2)] "v" 0)

namespace GemmaNode

/-- `GemmaNode._validate_changes(changes)`: inside a `model_updates` dict,
reject when the largest `weight_updates` value exceeds 1.0 or the
`performance_metrics` learning rate exceeds 0.1; accept otherwise (also
when the optional keys are absent). -/
def validate_changes_check (changes : Changes) : Bool :=
  match dlookup changes "model_updates" with
  | some (.dict updates) =>
    (match dlookup updates "weight_updates" with
     | some (.dict wu) => decide (¬ maxValues wu > 1)
     | _ => true)
    &&
    (match dlookup updates "performance_metrics" with
     | some (.dict metrics) => decide (¬ numGet metrics "learning_rate" 0 > (1 : Rat) / 10)
     | _ => true)
  | _ => true

/-- The node state touched by `validate_changes`: identity, validator flag
and the two counters it increments. -/
structure NodeState where
  id : String
  is_validator : Bool
  validation_count : Nat
  validation_success : Rat
deriving DecidableEq

/-- `GemmaNode.validate_changes(block)`: non-validators never vote; a
payload failing `_validate_changes` casts no vote and leaves the consensus
untouched; otherwise the node bumps its counters and forwards the vote to
`Consensus.validate_block`. -/
def validate_changes (node : NodeState) (c : Consensus) (block : Block) :
    NodeState × Consensus × Bool :=
  if !node.is_validator then (node, c, false)
  else if validate_changes_check block.changes then
    let node2 := { node with
      validation_count := node.validation_count + 1,
      validation_success := node.validation_success + 1 }
    let r := c.validate_block block.hash node.id
    (node2, r.1, r.2)
  else (node, c, false)

/-- The ledger effect of `GemmaNode.learn_from_experience(experience)`:
fine-tuning and update extraction run in external ML code, whose computed
model-updates dict arrives here as `model_updates`; the method then builds
the changes payload and unconditionally calls `Consensus.create_block` —
there is no sanity gate on this path. -/
def learn_from_experience (hashFn : String → String) (node_id : String)
    (c : Consensus) (t : Nat) (experience : List (String × Val))
    (model_updates : List (String × Val)) : Consensus × Block :=
  let changes : Changes :=
    [("experience", .dict experience),
     ("model_updates", .dict model_updates),
     ("timestamp", .num (t : Rat))]
  c.create_block hashFn t node_id changes

end GemmaNode

/-! ## Evolutionary consensus (src/core/evolutionary_consensus.py)

`ConsensusProposal.parameters` values are floats in every use the core
makes of them (`np.mean` is applied); they are embedded as `Rat`.
`Option` models Python exception flow: a `none` from `check_evolution`
is an exception escaping to `propose_rule`'s `try/except`, which logs it
and returns `False` — after the pool append and reputation update have
already happened. File I/O (`_save_evolution_history`) touches no core
state and is not modelled. -/

/-- `ConsensusRule` (Enum). -/
inductive ConsensusRule where
  | majority
  | weighted
  | reputation
  | evolutionary
deriving DecidableEq

/-- `ConsensusProposal` (dataclass). -/
structure ConsensusProposal where
  node_id : String
  rule_type : ConsensusRule
  parameters : List (String × Rat)
  fitness_score : Rat
  timestamp : Nat
  justification : String
deriving DecidableEq

/-- The dict built by `_create_new_rule` and stored in `rule_history`. -/
structure NewRule where
  rule_type : ConsensusRule
  parameters : List (String × Rat)
  timestamp : Nat
  proposals_used : List String
deriving DecidableEq

/-- The mutable state of `EvolutionaryConsensus` (config path, logger and
history directory are I/O plumbing with no bearing on the verified
behaviour). -/
structure EvolutionaryConsensus where
  proposals : List ConsensusProposal
  current_rule : ConsensusRule
  node_reputation : List (String × Rat)
  rule_history : List NewRule
deriving DecidableEq

namespace EvolutionaryConsensus

/-- `EvolutionaryConsensus.__init__`. -/
def init : EvolutionaryConsensus :=
  { proposals := [], current_rule := .evolutionary,
    node_reputation := [], rule_history := [] }

/-- Dict lookup in a numeric association list (first match, like a Python
dict, whose keys are unique). -/
def pfind (d : List (String × Rat)) (k : String) : Option Rat :=
  (d.find? (fun kv => kv.1 == k)).map (fun kv => kv.2)

/-- `_validate_parameters`: all of `threshold`, `timeout`, `min_validators`
must be present. -/
def validate_parameters (parameters : List (String × Rat)) : Bool :=
  ["threshold", "timeout", "min_validators"].all (fun k => (pfind parameters k).isSome)

/-- Word accumulator for `pySplit`: walk the characters, breaking at
whitespace and dropping empty pieces. -/
def pySplitAux (acc : List Char) : List Char → List String
  | [] => if acc.isEmpty then [] else [String.mk acc.reverse]
  | c :: cs =>
    if c.isWhitespace then
      if acc.isEmpty then pySplitAux [] cs
      else String.mk acc.reverse :: pySplitAux [] cs
    else pySplitAux (c :: acc) cs

/-- Python `str.split()`: split on whitespace runs, dropping empty pieces. -/
def pySplit (s : String) : List String :=
  pySplitAux [] s.data

/-- `_validate_justification`: length over 100 characters and over 20
whitespace-separated words. -/
def validate_justification (justification : String) : Bool :=
  decide (100 < justification.length) && decide (20 < (pySplit justification).length)

/-- `_validate_proposal`: parameter keys, justification gate, and — only for
nodes with an existing reputation record — a minimum reputation of 0.5. -/
def validate_proposal (s : EvolutionaryConsensus) (p : ConsensusProposal) : Bool :=
  validate_parameters p.parameters &&
  validate_justification p.justification &&
  (match pfind s.node_reputation p.node_id with
   | some r => decide (¬ r < 0.5)
   | none => true)

/-- `_update_node_reputation`: insert a 0.5 record for an unseen node (a
Python dict appends fresh keys in insertion order), then overwrite the
record in place with `0.7 * prior + 0.3 * fitness_score`. -/
def update_node_reputation (rep : List (String × Rat)) (node_id : String)
    (fitness_score : Rat) : List (String × Rat) :=
  let rep1 := if (pfind rep node_id).isSome then rep else rep ++ [(node_id, 0.5)]
  let cur := (pfind rep1 node_id).getD 0
  rep1.map (fun kv =>
    if kv.1 == node_id then (kv.1, 0.7 * cur + 0.3 * fitness_score) else kv)

/-- Python `sorted(proposals, key=lambda x: x.fitness_score, reverse=True)`:
a stable descending sort — higher fitness first, original order preserved
among equal scores. Realized as the unique order sorted by the total
relation (fitness descending, original position ascending). -/
def sortedByFitness (l : List ConsensusProposal) : List ConsensusProposal :=
  ((l.enum).insertionSort
      (fun a b => b.2.fitness_score < a.2.fitness_score ∨
        (a.2.fitness_score = b.2.fitness_score ∧ a.1 ≤ b.1))).map (fun x => x.2)

/-- `np.mean` over the collected parameter values (never called on an empty
list by the code: the list has one entry per selected proposal). -/
def npMean (values : List Rat) : Rat :=
  values.sum / (values.length : Rat)

/-- The `combined_params` loop of `_create_new_rule`: for each key of the
first selected proposal's parameters (in order), collect
`p.parameters[key]` over all selected proposals and average. A missing key
in any selected proposal is a Python `KeyError` (`none`). -/
def combine_params (best : List ConsensusProposal) :
    List (String × Rat) → Option (List (String × Rat))
  | [] => some []
  | (k, _) :: rest =>
    match best.mapM (fun p => pfind p.parameters k), combine_params best rest with
    | some values, some restC => some ((k, npMean values) :: restC)
    | _, _ => none

/-- `_create_new_rule(proposals)`: evolutionary rule type always, mean
parameters, contributing proposer ids. `none` is a raised exception
(`KeyError` on a missing parameter key; `best` is never empty when called —
`IndexError` on `proposals[0]` is modelled as `none` too). -/
def create_new_rule (now : Nat) (best : List ConsensusProposal) : Option NewRule :=
  match best with
  | [] => none
  | p0 :: _ =>
    match combine_params best p0.parameters with
    | some combined =>
      some { rule_type := .evolutionary, parameters := combined,
             timestamp := now, proposals_used := best.map (fun p => p.node_id) }
    | none => none

/-- `_evaluate_improvement`: the reference behaviour always accepts (the
body is a TODO returning `True`). -/
def evaluate_improvement (_new_rule : NewRule) : Bool :=
  true

/-- `_apply_new_rule`: install the rule type, append the history entry,
clear the proposal pool. -/
def apply_new_rule (s : EvolutionaryConsensus) (new_rule : NewRule) :
    EvolutionaryConsensus :=
  { s with current_rule := new_rule.rule_type,
           rule_history := s.rule_history ++ [new_rule],
           proposals := [] }

/-- `_check_evolution`: no-op below 5 pooled proposals; otherwise select the
top 3 by fitness, synthesize the mean rule, and (the improvement gate
always passing) install it. `none` propagates a raised exception. -/
def check_evolution (now : Nat) (s : EvolutionaryConsensus) :
    Option EvolutionaryConsensus :=
  if s.proposals.length < 5 then some s
  else
    let best := (sortedByFitness s.proposals).take 3
    match create_new_rule now best with
    | some new_rule =>
      if evaluate_improvement new_rule then some (apply_new_rule s new_rule)
      else some s
    | none => none

/-- `propose_rule(proposal)`: gate check (reject with no state change on
failure), then pool append, reputation update and evolution check under a
`try/except` that converts any raised exception into a `false` return — the
mutations made before the exception are kept. -/
def propose_rule (now : Nat) (s : EvolutionaryConsensus)
    (p : ConsensusProposal) : EvolutionaryConsensus × Bool :=
  if validate_proposal s p then
    let s1 := { s with proposals := s.proposals ++ [p] }
    let s2 := { s1 with
      node_reputation := update_node_reputation s1.node_reputation p.node_id p.fitness_score }
    match check_evolution now s2 with
    | some s3 => (s3, true)
    | none => (s2, false)
  else (s, false)

end EvolutionaryConsensus

/-! ## Reachability predicates and concrete instances used by the claims -/

/-- States of `EvolutionaryConsensus` reachable from a fresh instance by
`propose_rule` calls whose fitness scores lie in `[0, 1]`. -/
inductive EvoReachable : EvolutionaryConsensus → Prop where
  | init : EvoReachable EvolutionaryConsensus.init
  | step : ∀ now s p, EvoReachable s → 0 ≤ p.fitness_score →
      p.fitness_score ≤ 1 →
      EvoReachable (EvolutionaryConsensus.propose_rule now s p).1

/-- States reachable from a fresh instance by `propose_rule` calls that do
not hit an internal error: each call either returns `true` or is rejected
by a validation gate (in the Python code the only other way to return
`false` is an exception caught by the `try/except`). -/
inductive EvoReachableSafe : EvolutionaryConsensus → Prop where
  | init : EvoReachableSafe EvolutionaryConsensus.init
  | step : ∀ now s p, EvoReachableSafe s →
      (EvolutionaryConsensus.propose_rule now s p).2 = true ∨
        EvolutionaryConsensus.validate_proposal s p = false →
      EvoReachableSafe (EvolutionaryConsensus.propose_rule now s p).1

/-- A rejected block sitting in a one-block ledger with quorum 1: the input
on which `validate_block`'s ignorance of `status` is observable. -/
def rejectedBlock : Block :=
  { timestamp := 0, node_id := "n1", changes := [],
    previous_hash := zeroHash, hash := "h1",
    validators := [], status := "rejected" }

/-- One-block ledger holding `rejectedBlock`, `min_validators = 1`. -/
def rejectedLedger : Consensus :=
  { min_validators := 1, blocks := [rejectedBlock], validators := [] }

/-- A justification long enough for `_validate_justification`: over 100
characters and over 20 whitespace-separated words. -/
def validJust : String :=
  "raise quorum after repeated benchmark runs show that latency stays low while fairness across nodes improves during extended operation in all tested network sizes"

/-- The five-proposal scenario of the evolution-trigger claim: fitness
scores 0.9, 0.8, 0.95, 0.3, 0.6 in submission order. -/
def propQ1 : ConsensusProposal :=
  { node_id := "p1", rule_type := .majority,
    parameters := [("threshold", 0.6), ("timeout", 30), ("min_validators", 3)],
    fitness_score := 0.9, timestamp := 1, justification := validJust }

def propQ2 : ConsensusProposal :=
  { node_id := "p2", rule_type := .weighted,
    parameters := [("threshold", 0.7), ("timeout", 20), ("min_validators", 4)],
    fitness_score := 0.8, timestamp := 2, justification := validJust }

def propQ3 : ConsensusProposal :=
  { node_id := "p3", rule_type := .reputation,
    parameters := [("threshold", 0.8), ("timeout", 10), ("min_validators", 5)],
    fitness_score := 0.95, timestamp := 3, justification := validJust }

def propQ4 : ConsensusProposal :=
  { node_id := "p4", rule_type := .evolutionary,
    parameters := [("threshold", 0.1), ("timeout", 99), ("min_validators", 1)],
    fitness_score := 0.3, timestamp := 4, justification := validJust }

def propQ5 : ConsensusProposal :=
  { node_id := "p5", rule_type := .majority,
    parameters := [("threshold", 0.5), ("timeout", 50), ("min_validators", 2)],
    fitness_score := 0.6, timestamp := 5, justification := validJust }

/-- A proposal whose parameters carry an extra key `extra` on top of the
three required ones; with the highest fitness in the pool it becomes
`proposals[0]` of the selected triple, and `_create_new_rule` then raises
`KeyError` on `extra` for the other selected proposals. -/
def propExtra : ConsensusProposal :=
  { node_id := "p9", rule_type := .evolutionary,
    parameters := [("threshold", 0.9), ("timeout", 15), ("min_validators", 3),
                   ("extra", 1)],
    fitness_score := 0.99, timestamp := 9, justification := validJust }

/-- A pool of four ordinary proposals: the state just below the evolution
threshold. -/
def pool4 : EvolutionaryConsensus :=
  { proposals := [propQ1, propQ2, propQ4, propQ5],
    current_rule := .evolutionary, node_reputation := [], rule_history := [] }

/-- A proposal failing the justification gate (empty justification). -/
def propBad : ConsensusProposal :=
  { node_id := "pb", rule_type := .majority,
    parameters := [("threshold", 0.5), ("timeout", 10), ("min_validators", 3)],
    fitness_score := 0.9, timestamp := 0, justification := "" }

/-- A model-updates dict whose largest weight delta is 2.0 — over the 1.0
producer-spec limit. -/
def badModelUpdates : List (String × Val) :=
  [("weight_updates", .dict [("layer0", .num 2)]),
   ("performance_metrics", .dict [("learning_rate", .num 0.05)])]

/-- The five-proposal pool of the evolution-trigger scenario (fitness
scores 0.9, 0.8, 0.95, 0.3, 0.6 in submission order). -/
def pool5 : EvolutionaryConsensus :=
  { proposals := [propQ1, propQ2, propQ3, propQ4, propQ5],
    current_rule := .evolutionary, node_reputation := [], rule_history := [] }

/-- The rule `_create_new_rule` synthesizes from the top-3 proposals of
`pool5` (selected by fitness: 0.95, 0.9, 0.8): per-key arithmetic means. -/
def ruleC4 : NewRule :=
  { rule_type := .evolutionary,
    parameters := [("threshold", 0.7), ("timeout", 20), ("min_validators", 4)],
    timestamp := 9, proposals_used := ["p3", "p1", "p2"] }

/-- The state `propose_rule` has built right before `_check_evolution` runs:
pool appended, proposer reputation updated. -/
def poolAppend (s : EvolutionaryConsensus) (p : ConsensusProposal) :
    EvolutionaryConsensus :=
  { s with proposals := s.proposals ++ [p],
           node_reputation := EvolutionaryConsensus.update_node_reputation
             s.node_reputation p.node_id p.fitness_score }

/-- The hash a block appended to ledger `l` must point back to, given the
hash `p` expected of `l`'s own first block's predecessor: the hash of `l`'s
last block, or `p` when `l` is empty. -/
def lastHashFrom (p : String) : List Block → String
  | [] => p
  | b :: rest => lastHashFrom b.hash rest

/-! ## Theorems -/

lemma validateStep_hash_prev (mv : Nat) (v : String) (b : Block) :
    ((validateStep mv v b).1).hash = b.hash ∧
    ((validateStep mv v b).1).previous_hash = b.previous_hash := by
  by_cases hv : v ∈ b.validators
  · simp [validateStep, hv]
  · simp only [validateStep, hv]
    split
    · exact ⟨rfl, rfl⟩
    · split
      · exact ⟨rfl, rfl⟩
      · exact ⟨rfl, rfl⟩

lemma validateStep_contains_self (mv : Nat) (v : String) (b : Block) :
    ((validateStep mv v b).1).validators.contains v = true := by
  by_cases hv : v ∈ b.validators
  · simp [validateStep, hv]
  · simp only [validateStep, hv]
    split
    · next hcon => exact hcon
    · split
      · simp
      · simp

lemma chainAux_updateBlock (h : String) (f : Block → Block × Bool)
    (hf : ∀ b, ((f b).1).hash = b.hash ∧ ((f b).1).previous_hash = b.previous_hash)
    (l : List Block) (p : String) :
    chainAux p (updateBlock h f l).1 = chainAux p l := by
  induction l generalizing p with
  | nil => rfl
  | cons b rest ih =>
    unfold updateBlock
    by_cases hb : (b.hash == h) = true
    · rw [if_pos hb]
      simp only [chainAux]
      rw [(hf b).1, (hf b).2]
    · rw [if_neg hb]
      simp only [chainAux]
      rw [ih]

lemma getLast?_hash_lastHashFrom (l : List Block) (p : String) :
    (match l.getLast? with | some b => b.hash | none => p) = lastHashFrom p l := by
  induction l generalizing p with
  | nil => rfl
  | cons b rest ih =>
    cases rest with
    | nil => rfl
    | cons x xs =>
      rw [List.getLast?_cons_cons]
      exact ih b.hash

lemma chainAux_append (b : Block) (l : List Block) (p : String)
    (hc : chainAux p l = true) (hb : b.previous_hash = lastHashFrom p l) :
    chainAux p (l ++ [b]) = true := by
  induction l generalizing p with
  | nil =>
    simp only [List.nil_append, chainAux, Bool.and_true]
    simp [hb, lastHashFrom]
  | cons x rest ih =>
    simp only [chainAux, Bool.and_eq_true] at hc
    simp only [List.cons_append, chainAux, Bool.and_eq_true]
    exact ⟨by simp [hc.1], ih x.hash hc.2 hb⟩

/-- C2: hash-chain integrity in every reachable ledger state. -/
theorem chain_integrity (hashFn : String → String) (c : Consensus)
    (hr : Reachable hashFn c) : chainOk c.blocks = true := by
  induction hr with
  | init mv => rfl
  | create c t n ch _ ih =>
    exact chainAux_append _ c.blocks zeroHash ih (getLast?_hash_lastHashFrom c.blocks zeroHash)
  | validate c h v _ ih =>
    unfold Consensus.validate_block chainOk
    simp only
    rw [chainAux_updateBlock h _ (validateStep_hash_prev c.min_validators v) c.blocks zeroHash]
    exact ih
  | reject c h _ ih =>
    unfold Consensus.reject_block chainOk
    simp only
    rw [chainAux_updateBlock h _ (fun b => ⟨rfl, rfl⟩) c.blocks zeroHash]
    exact ih

lemma updateBlock_validateStep_noop (mv : Nat) (h v : String) (l : List Block)
    (hmem : ∀ b ∈ l, b.hash = h → v ∈ b.validators) :
    updateBlock h (validateStep mv v) l = (l, false) := by
  induction l with
  | nil => rfl
  | cons b rest ih =>
    unfold updateBlock
    by_cases hb : (b.hash == h) = true
    · rw [if_pos hb]
      have hv : v ∈ b.validators := hmem b (by simp) (by simpa using hb)
      simp [validateStep, hv]
    · rw [if_neg hb]
      rw [ih (fun x hx => hmem x (by simp [hx]))]

/-- C1 (amended): `validate_block` never inspects the block's status. A call
whose validator is already recorded on every block carrying the target hash
returns `false` and leaves the state exactly unchanged — that is the only
"no-op returning failure" case; a call with a fresh validator mutates even a
non-pending block, shown concretely: on a rejected block with quorum 1, a
fresh validator is appended, the status is overwritten to "validated" and
the call returns `true` (rejection is not terminal). -/
theorem validate_block_ignores_status (c : Consensus) (h v : String)
    (hmem : ∀ b ∈ c.blocks, b.hash = h → v ∈ b.validators) :
    c.validate_block h v = (c, false) ∧
    ((rejectedLedger.validate_block "h1" "w").2 = true ∧
      (rejectedLedger.validate_block "h1" "w").1.blocks.map Block.status
        = ["validated"]) := by
  refine ⟨?_, by decide, by decide⟩
  unfold Consensus.validate_block
  rw [updateBlock_validateStep_noop c.min_validators h v c.blocks hmem]

theorem validate_block_ignores_status_witness :
    (Consensus.init 3).validate_block "h0" "w" = (Consensus.init 3, false) ∧
    ((rejectedLedger.validate_block "h1" "w").2 = true ∧
      (rejectedLedger.validate_block "h1" "w").1.blocks.map Block.status
        = ["validated"]) :=
  validate_block_ignores_status (Consensus.init 3) "h0" "w" (by simp [Consensus.init])

/-- C1 (counterexample): the claim "if the block is rejected, the call
returns `false` and changes nothing" fails — on a rejected block with
`min_validators = 1`, a fresh validator makes `validate_block` return
`true`, append the validator and overwrite the status to "validated". -/
theorem validate_block_rejected_not_terminal :
    rejectedBlock.status = "rejected" ∧
    (rejectedLedger.validate_block "h1" "v").2 = true ∧
    (rejectedLedger.validate_block "h1" "v").1.blocks.map Block.status
      = ["validated"] ∧
    (rejectedLedger.validate_block "h1" "v").1.blocks.map Block.validators
      = [["v"]] := by
  refine ⟨rfl, by decide, by decide, by decide⟩

lemma validateStep_noop_of_mem (mv : Nat) (v : String) (b : Block)
    (hmem : v ∈ b.validators) : validateStep mv v b = (b, false) := by
  simp [validateStep, hmem]

lemma updateBlock_cons_pos (f : Block → Block × Bool) {h : String} {b : Block}
    {rest : List Block} (hb : (b.hash == h) = true) :
    updateBlock h f (b :: rest) = ((f b).1 :: rest, (f b).2) := by
  simp only [updateBlock]
  rw [if_pos hb]

lemma updateBlock_cons_neg (f : Block → Block × Bool) {h : String} {b : Block}
    {rest : List Block} (hb : ¬ (b.hash == h) = true) :
    updateBlock h f (b :: rest)
      = (b :: (updateBlock h f rest).1, (updateBlock h f rest).2) := by
  simp only [updateBlock]
  rw [if_neg hb]

lemma updateBlock_validateStep_idem (mv : Nat) (h v : String) (l : List Block) :
    updateBlock h (validateStep mv v) (updateBlock h (validateStep mv v) l).1
      = ((updateBlock h (validateStep mv v) l).1, false) := by
  induction l with
  | nil => rfl
  | cons b rest ih =>
    by_cases hb : (b.hash == h) = true
    · have hh : (((validateStep mv v b).1).hash == h) = true := by
        rw [(validateStep_hash_prev mv v b).1]
        exact hb
      have hmem : v ∈ ((validateStep mv v b).1).validators := by
        simpa using validateStep_contains_self mv v b
      simp only [updateBlock_cons_pos _ hb, updateBlock_cons_pos _ hh,
        validateStep_noop_of_mem mv v _ hmem]
    · simp only [updateBlock_cons_neg _ hb, ih]

lemma validateStep_length_bound (mv : Nat) (v : String) (b : Block) :
    ((validateStep mv v b).1).validators.length ≤ b.validators.length + 1 := by
  by_cases hv : v ∈ b.validators
  · simp [validateStep, hv]
  · simp only [validateStep, hv]
    split
    · exact Nat.le_succ _
    · split
      · simp
      · simp

lemma updateBlock_length_bound (h : String) (f : Block → Block × Bool)
    (hf : ∀ b, ((f b).1).validators.length ≤ b.validators.length + 1)
    (l : List Block) :
    List.Forall₂ (fun b0 b1 => b1.validators.length ≤ b0.validators.length + 1)
      l (updateBlock h f l).1 := by
  induction l with
  | nil => exact List.Forall₂.nil
  | cons b rest ih =>
    unfold updateBlock
    by_cases hb : (b.hash == h) = true
    · rw [if_pos hb]
      exact List.Forall₂.cons (hf b)
        ((List.forall₂_same).mpr (fun x _ => Nat.le_succ _))
    · rw [if_neg hb]
      exact List.Forall₂.cons (Nat.le_succ _) ih

/-- C7: validator-set idempotence. A second `validate_block` call with the
same hash and validator is a strict no-op returning `false` (so two calls
never add the identity twice), and a single call grows each block's
validator set by at most one. -/
theorem validate_block_idempotent (c : Consensus) (h v : String) :
    ((c.validate_block h v).1).validate_block h v
      = ((c.validate_block h v).1, false) ∧
    List.Forall₂ (fun b0 b1 => b1.validators.length ≤ b0.validators.length + 1)
      c.blocks ((c.validate_block h v).1).blocks := by
  constructor
  · unfold Consensus.validate_block
    simp only
    rw [updateBlock_validateStep_idem c.min_validators h v c.blocks]
  · exact updateBlock_length_bound h _
      (validateStep_length_bound c.min_validators v) c.blocks

/-- C5: quorum threshold semantics with `min_validators = 3` — the created
block starts `pending`; validations by `n1` and `n2` return `false` and
leave it pending with validator sets `[n1]` then `[n1, n2]`; the third, by
`n3`, returns `true` and flips the status to `validated`. -/
theorem quorum_threshold_scenario (hashFn : String → String) (t : Nat)
    (producer : String) (ch : Changes) :
    let r0 := (Consensus.init 3).create_block hashFn t producer ch
    let r1 := r0.1.validate_block r0.2.hash "n1"
    let r2 := r1.1.validate_block r0.2.hash "n2"
    let r3 := r2.1.validate_block r0.2.hash "n3"
    r0.2.status = "pending" ∧
    r1.2 = false ∧ r1.1.blocks.map Block.status = ["pending"] ∧
      r1.1.blocks.map Block.validators = [["n1"]] ∧
    r2.2 = false ∧ r2.1.blocks.map Block.status = ["pending"] ∧
      r2.1.blocks.map Block.validators = [["n1", "n2"]] ∧
    r3.2 = true ∧ r3.1.blocks.map Block.status = ["validated"] ∧
      r3.1.blocks.map Block.validators = [["n1", "n2", "n3"]] := by
  simp only [Consensus.init, Consensus.create_block, Consensus.validate_block,
    updateBlock, validateStep]
  simp [updateBlock, validateStep]

theorem chain_integrity_witness :
    chainOk (((((Consensus.init 1).create_block (fun s => s) 0 "n1" []).1.create_block
        (fun s => s) 1 "n2" []).1.validate_block "h" "v").1.reject_block "h").blocks
      = true :=
  chain_integrity (fun s => s) _
    (Reachable.reject _ "h"
      (Reachable.validate _ "h" "v"
        (Reachable.create _ 1 "n2" []
          (Reachable.create _ 0 "n1" [] (Reachable.init 1)))))

open EvolutionaryConsensus

lemma propose_rule_gate_false {now : Nat} {s : EvolutionaryConsensus}
    {p : ConsensusProposal} (hg : validate_proposal s p = false) :
    propose_rule now s p = (s, false) := by
  unfold propose_rule
  rw [hg]
  simp

lemma propose_rule_gate_true {now : Nat} {s : EvolutionaryConsensus}
    {p : ConsensusProposal} (hg : validate_proposal s p = true) :
    propose_rule now s p =
      (match check_evolution now (poolAppend s p) with
       | some s3 => (s3, true)
       | none => (poolAppend s p, false)) := by
  unfold propose_rule
  rw [if_pos hg]
  rfl

/-- C3 (counterexample): `propose_rule` can return `false` and still mutate
the state. `propExtra` passes every validation gate, is appended to the pool
and updates reputation; then `_check_evolution` raises `KeyError` (the key
`extra` of the top-fitness proposal is absent from the other selected
proposals), the `except` swallows it and returns `false` — with the pool
grown from 4 to 5 and the proposer's reputation record created. -/
theorem propose_rule_false_yet_mutated :
    (propose_rule 9 pool4 propExtra).2 = false ∧
    pool4.proposals.length = 4 ∧
    (propose_rule 9 pool4 propExtra).1.proposals.length = 5 ∧
    pool4.node_reputation = [] ∧
    (propose_rule 9 pool4 propExtra).1.node_reputation ≠ [] := by
  refine ⟨by decide, by decide, by decide, by decide, by decide⟩

/-- C3 (amended): a `false` return from `propose_rule` leaves the state
exactly unchanged when a validation gate failed — and no exception ever
propagates (the function is total, errors surface as `false`) — but when the
`false` comes from a caught internal error the call has already appended the
proposal to the pool (and updated reputation): the no-side-effect guarantee
holds only for gate failures. -/
theorem propose_rule_failure_semantics (now : Nat) (s : EvolutionaryConsensus)
    (p : ConsensusProposal) :
    (validate_proposal s p = false → propose_rule now s p = (s, false)) ∧
    ((propose_rule now s p).2 = false →
      propose_rule now s p = (s, false) ∨
        (propose_rule now s p).1.proposals = s.proposals ++ [p]) := by
  constructor
  · intro hg
    exact propose_rule_gate_false hg
  · intro h2
    by_cases hg : validate_proposal s p = true
    · right
      have he := @propose_rule_gate_true now s p hg
      rcases hce : check_evolution now (poolAppend s p) with _ | s3
      · rw [hce] at he
        rw [he]
        rfl
      · rw [hce] at he
        rw [he] at h2
        simp at h2
    · left
      exact propose_rule_gate_false (by simpa using hg)

theorem propose_rule_failure_semantics_witness :
    validate_proposal EvolutionaryConsensus.init propBad = false ∧
    propose_rule 0 EvolutionaryConsensus.init propBad
      = (EvolutionaryConsensus.init, false) :=
  ⟨by decide,
   (propose_rule_failure_semantics 0 EvolutionaryConsensus.init propBad).1 (by decide)⟩

lemma combine_params_keys {best : List ConsensusProposal}
    {l c : List (String × Rat)} (h : combine_params best l = some c) :
    c.map Prod.fst = l.map Prod.fst := by
  induction l generalizing c with
  | nil =>
    unfold combine_params at h
    cases h
    rfl
  | cons kv rest ih =>
    unfold combine_params at h
    rcases hv : best.mapM (fun p => pfind p.parameters kv.1) with _ | values
    · rw [hv] at h
      simp at h
    · rw [hv] at h
      rcases hc : combine_params best rest with _ | restC
      · rw [hc] at h
        simp at h
      · rw [hc] at h
        simp only at h
        cases h
        simp [ih hc]

lemma combine_params_pfind {best : List ConsensusProposal}
    {l c : List (String × Rat)} (h : combine_params best l = some c) :
    ∀ k q, pfind c k = some q →
      ∃ values, best.mapM (fun p => pfind p.parameters k) = some values ∧
        q = npMean values := by
  induction l generalizing c with
  | nil =>
    unfold combine_params at h
    cases h
    intro k q hq
    simp [pfind] at hq
  | cons kv rest ih =>
    unfold combine_params at h
    rcases hv : best.mapM (fun p => pfind p.parameters kv.1) with _ | values
    · rw [hv] at h
      simp at h
    · rw [hv] at h
      rcases hc : combine_params best rest with _ | restC
      · rw [hc] at h
        simp at h
      · rw [hc] at h
        simp only at h
        cases h
        intro k q hq
        by_cases hk : (kv.1 == k) = true
        · have hkk : kv.1 = k := by simpa using hk
          simp [pfind, List.find?, hk] at hq
          exact ⟨values, by rw [← hkk]; exact hv, hq.symm⟩
        · simp only [pfind, List.find?, hk] at hq
          exact ih hc k q hq

/-- C4: the evolution trigger. Below 5 pooled proposals `_check_evolution`
is a no-op. At 5 or more, with `best` the top-3 by fitness (stable
descending sort) and `_create_new_rule` succeeding with rule `r`: the rule
is installed (`rule_type` evolutionary, history entry recording the
contributing proposer ids appended, pool cleared), the new parameter keys
are exactly those of the first selected proposal, and every parameter value
is the arithmetic mean of that key's values over the 3 selected proposals.
Concretely, submitting the five proposals with fitness scores
0.9, 0.8, 0.95, 0.3, 0.6 accepts all five; the fifth call triggers
evolution on the three scored 0.95, 0.9, 0.8 (`p3`, `p1`, `p2`), installs
their mean parameters and leaves the pool empty. -/
theorem evolution_trigger (now : Nat) (s : EvolutionaryConsensus) :
    (s.proposals.length < 5 → check_evolution now s = some s) ∧
    (∀ r p0 rest,
      5 ≤ s.proposals.length →
      (sortedByFitness s.proposals).take 3 = p0 :: rest →
      create_new_rule now (p0 :: rest) = some r →
      check_evolution now s = some (apply_new_rule s r) ∧
      (apply_new_rule s r).proposals = [] ∧
      (apply_new_rule s r).rule_history = s.rule_history ++ [r] ∧
      (apply_new_rule s r).current_rule = ConsensusRule.evolutionary ∧
      r.rule_type = ConsensusRule.evolutionary ∧
      r.proposals_used = (p0 :: rest).map (fun x => x.node_id) ∧
      r.parameters.map Prod.fst = p0.parameters.map Prod.fst ∧
      (∀ k q, pfind r.parameters k = some q →
        ∃ values,
          (p0 :: rest).mapM (fun x => pfind x.parameters k) = some values ∧
          q = npMean values)) ∧
    ((propose_rule 5 ((propose_rule 4 ((propose_rule 3 ((propose_rule 2
        ((propose_rule 1 EvolutionaryConsensus.init propQ1).1) propQ2).1)
        propQ3).1) propQ4).1) propQ5).2 = true ∧
      (propose_rule 4 ((propose_rule 3 ((propose_rule 2
        ((propose_rule 1 EvolutionaryConsensus.init propQ1).1) propQ2).1)
        propQ3).1) propQ4).2 = true ∧
      (propose_rule 5 ((propose_rule 4 ((propose_rule 3 ((propose_rule 2
        ((propose_rule 1 EvolutionaryConsensus.init propQ1).1) propQ2).1)
        propQ3).1) propQ4).1) propQ5).1.proposals = [] ∧
      (propose_rule 5 ((propose_rule 4 ((propose_rule 3 ((propose_rule 2
        ((propose_rule 1 EvolutionaryConsensus.init propQ1).1) propQ2).1)
        propQ3).1) propQ4).1) propQ5).1.rule_history
        = [{ rule_type := .evolutionary,
             parameters := [("threshold", 0.7), ("timeout", 20),
                            ("min_validators", 4)],
             timestamp := 5, proposals_used := ["p3", "p1", "p2"] }]) := by
  refine ⟨?_, ?_, by decide, by decide, by decide, by decide⟩
  · intro hlt
    unfold check_evolution
    rw [if_pos hlt]
  · intro r p0 rest hge htake hr
    have hcheck : check_evolution now s = some (apply_new_rule s r) := by
      unfold check_evolution
      rw [if_neg (Nat.not_lt.mpr hge), htake]
      simp only [hr, evaluate_improvement, if_true]
    obtain ⟨combined, hcp, hrule⟩ :
        ∃ combined, combine_params (p0 :: rest) p0.parameters = some combined ∧
          r = { rule_type := .evolutionary, parameters := combined,
                timestamp := now,
                proposals_used := (p0 :: rest).map (fun x => x.node_id) } := by
      unfold create_new_rule at hr
      simp only at hr
      rcases hcp : combine_params (p0 :: rest) p0.parameters with _ | combined
      · rw [hcp] at hr
        simp at hr
      · rw [hcp] at hr
        simp only at hr
        cases hr
        exact ⟨combined, rfl, rfl⟩
    subst hrule
    refine ⟨hcheck, rfl, rfl, rfl, rfl, rfl, ?_, ?_⟩
    · exact combine_params_keys hcp
    · exact combine_params_pfind hcp

theorem evolution_trigger_witness :
    pool5.proposals.length = 5 ∧
    check_evolution 9 pool5 = some (apply_new_rule pool5 ruleC4) ∧
    (apply_new_rule pool5 ruleC4).proposals = [] :=
  ⟨by decide,
   ((evolution_trigger 9 pool5).2.1 ruleC4 propQ3 [propQ1, propQ2]
      (by decide) (by decide) (by decide)).1,
   ((evolution_trigger 9 pool5).2.1 ruleC4 propQ3 [propQ1, propQ2]
      (by decide) (by decide) (by decide)).2.1⟩

lemma pfind_append_single {rep : List (String × Rat)} {n : String} (x : Rat)
    (h : pfind rep n = none) : pfind (rep ++ [(n, x)]) n = some x := by
  induction rep with
  | nil => simp [pfind, List.find?]
  | cons kv rest ih =>
    by_cases hk : (kv.1 == n) = true
    · simp [pfind, List.find?, hk] at h
    · simp only [pfind, List.find?, hk, List.cons_append] at h ⊢
      exact ih h

lemma pfind_map_set (l : List (String × Rat)) (n : String) (v : Rat) :
    pfind (l.map (fun kv => if kv.1 == n then (kv.1, v) else kv)) n
      = if (pfind l n).isSome then some v else none := by
  induction l with
  | nil => rfl
  | cons kv rest ih =>
    by_cases hk : (kv.1 == n) = true
    · simp [pfind, List.find?, hk]
    · simp only [List.map_cons, if_neg hk]
      simp only [pfind, List.find?, hk] at ih ⊢
      exact ih

lemma update_node_reputation_pfind (rep : List (String × Rat)) (n : String)
    (f : Rat) :
    pfind (update_node_reputation rep n f) n
      = some (0.7 * ((pfind rep n).getD 0.5) + 0.3 * f) := by
  unfold update_node_reputation
  rcases hp : pfind rep n with _ | q
  · simp only [hp, Option.isSome_none, Bool.false_eq_true, if_false]
    have h1 : pfind (rep ++ [(n, 0.5)]) n = some 0.5 := pfind_append_single 0.5 hp
    rw [pfind_map_set, h1]
    simp
  · simp only [hp, Option.isSome_some, if_true]
    rw [pfind_map_set, hp]
    simp

lemma check_evolution_rep {now : Nat} {s s' : EvolutionaryConsensus}
    (h : check_evolution now s = some s') :
    s'.node_reputation = s.node_reputation := by
  unfold check_evolution at h
  by_cases hl : s.proposals.length < 5
  · rw [if_pos hl] at h
    cases h
    rfl
  · rw [if_neg hl] at h
    simp only at h
    rcases hc : create_new_rule now ((sortedByFitness s.proposals).take 3)
        with _ | r
    · rw [hc] at h
      cases h
    · rw [hc] at h
      simp only [evaluate_improvement, if_true] at h
      cases h
      rfl

/-- C6: the reputation update. Every accepted proposal sets the proposer's
reputation to `0.7 · prior + 0.3 · fitness_score`, where the prior is the
stored score, or 0.5 for a first-time proposer. -/
theorem reputation_update (now : Nat) (s : EvolutionaryConsensus)
    (p : ConsensusProposal) (hacc : (propose_rule now s p).2 = true) :
    pfind ((propose_rule now s p).1).node_reputation p.node_id
      = some (0.7 * ((pfind s.node_reputation p.node_id).getD 0.5)
          + 0.3 * p.fitness_score) := by
  by_cases hg : validate_proposal s p = true
  · have he := @propose_rule_gate_true now s p hg
    rcases hce : check_evolution now (poolAppend s p) with _ | s3
    · rw [hce] at he
      rw [he] at hacc
      simp at hacc
    · rw [hce] at he
      rw [he]
      have hrep := check_evolution_rep hce
      simp only [hrep]
      exact update_node_reputation_pfind s.node_reputation p.node_id p.fitness_score
  · rw [propose_rule_gate_false (by simpa using hg)] at hacc
    simp at hacc

/-- C6 witness: a fresh node proposing with fitness 1.0 ends at
`0.7 · 0.5 + 0.3 · 1.0 = 0.65`. -/
theorem reputation_update_witness :
    (propose_rule 0 EvolutionaryConsensus.init
        { propQ1 with fitness_score := 1 }).2 = true ∧
    pfind ((propose_rule 0 EvolutionaryConsensus.init
        { propQ1 with fitness_score := 1 }).1).node_reputation "p1"
      = some 0.65 :=
  ⟨by decide,
   (reputation_update 0 EvolutionaryConsensus.init
      { propQ1 with fitness_score := 1 } (by decide)).trans (by decide)⟩

lemma pfind_value_mem {l : List (String × Rat)} {n : String} {q : Rat}
    (h : pfind l n = some q) : ∃ kv, kv ∈ l ∧ kv.2 = q := by
  unfold pfind at h
  rcases hf : l.find? (fun kv => kv.1 == n) with _ | kv
  · rw [hf] at h
    simp at h
  · rw [hf] at h
    simp only [Option.map] at h
    cases h
    exact ⟨kv, List.mem_of_find?_eq_some hf, rfl⟩

lemma update_node_reputation_bounds {rep : List (String × Rat)} {n : String}
    {f : Rat} (hrep : ∀ kv ∈ rep, 0 ≤ kv.2 ∧ kv.2 ≤ 1)
    (hf0 : 0 ≤ f) (hf1 : f ≤ 1) :
    ∀ kv ∈ update_node_reputation rep n f, 0 ≤ kv.2 ∧ kv.2 ≤ 1 := by
  unfold update_node_reputation
  intro kv hkv
  set rep1 := if (pfind rep n).isSome = true then rep else rep ++ [(n, 0.5)]
    with hrep1
  have hb1 : ∀ kv ∈ rep1, 0 ≤ kv.2 ∧ kv.2 ≤ 1 := by
    rw [hrep1]
    split
    · exact hrep
    · intro kv hkv
      rcases List.mem_append.mp hkv with hin | hin
      · exact hrep kv hin
      · simp at hin
        rw [hin]
        norm_num
  have hcur : 0 ≤ (pfind rep1 n).getD 0 ∧ (pfind rep1 n).getD 0 ≤ 1 := by
    rcases hp : pfind rep1 n with _ | q
    · simp
    · obtain ⟨kv0, hkv0, hkv0v⟩ := pfind_value_mem hp
      simpa [hkv0v] using hb1 kv0 hkv0
  rcases List.mem_map.mp hkv with ⟨kv0, hkv0, hkveq⟩
  by_cases hk : (kv0.1 == n) = true
  · rw [if_pos hk] at hkveq
    rw [← hkveq]
    constructor
    · have h1 : (0 : Rat) ≤ 0.7 * (pfind rep1 n).getD 0 :=
        mul_nonneg (by norm_num) hcur.1
      have h2 : (0 : Rat) ≤ 0.3 * f := mul_nonneg (by norm_num) hf0
      simpa using add_nonneg h1 h2
    · have h1 : (0.7 : Rat) * (pfind rep1 n).getD 0 ≤ 0.7 * 1 :=
        mul_le_mul_of_nonneg_left hcur.2 (by norm_num)
      have h2 : (0.3 : Rat) * f ≤ 0.3 * 1 :=
        mul_le_mul_of_nonneg_left hf1 (by norm_num)
      have := add_le_add h1 h2
      simp only at this ⊢
      linarith
  · rw [if_neg hk] at hkveq
    rw [← hkveq]
    exact hb1 kv0 hkv0

/-- C8: reputation stays in `[0, 1]`. If every fitness score supplied to
`propose_rule` lies in `[0, 1]`, every node's reputation score in every
reachable state lies in `[0, 1]` (each update is a convex combination of a
prior in `[0, 1]` — starting at 0.5 — and a fitness in `[0, 1]`). -/
theorem reputation_bounded (s : EvolutionaryConsensus) (hs : EvoReachable s) :
    ∀ kv ∈ s.node_reputation, 0 ≤ kv.2 ∧ kv.2 ≤ 1 := by
  induction hs with
  | init =>
    intro kv hkv
    simp [EvolutionaryConsensus.init] at hkv
  | step now s p hr hf0 hf1 ih =>
    by_cases hg : validate_proposal s p = true
    · have he := @propose_rule_gate_true now s p hg
      rcases hce : check_evolution now (poolAppend s p) with _ | s3
      · rw [hce] at he
        rw [he]
        exact update_node_reputation_bounds ih hf0 hf1
      · rw [hce] at he
        rw [he]
        have hrep := check_evolution_rep hce
        intro kv hkv
        simp only at hkv
        rw [hrep] at hkv
        exact update_node_reputation_bounds ih hf0 hf1 kv hkv
    · rw [propose_rule_gate_false (by simpa using hg)]
      exact ih

theorem reputation_bounded_witness :
    (0 : Rat) ≤ ("p1", (13 : Rat)/20).2 ∧ ("p1", (13 : Rat)/20).2 ≤ 1 :=
  reputation_bounded _
    (EvoReachable.step 0 EvolutionaryConsensus.init
      { propQ1 with fitness_score := 1 }
      EvoReachable.init (by decide) (by decide))
    ("p1", (13 : Rat)/20) (by decide)

lemma propose_rule_pool_lt (now : Nat) (s : EvolutionaryConsensus)
    (p : ConsensusProposal) (hlt : s.proposals.length < 5)
    (hok : (propose_rule now s p).2 = true ∨ validate_proposal s p = false) :
    ((propose_rule now s p).1).proposals.length < 5 := by
  by_cases hg : validate_proposal s p = true
  · have he := @propose_rule_gate_true now s p hg
    rcases hce : check_evolution now (poolAppend s p) with _ | s3
    · rw [hce] at he
      rcases hok with hacc | hbad
      · rw [he] at hacc
        simp at hacc
      · rw [hg] at hbad
        cases hbad
    · rw [hce] at he
      rw [he]
      by_cases hlen : (poolAppend s p).proposals.length < 5
      · unfold check_evolution at hce
        rw [if_pos hlen] at hce
        cases hce
        exact hlen
      · unfold check_evolution at hce
        rw [if_neg hlen] at hce
        simp only at hce
        rcases hc : create_new_rule now
            ((sortedByFitness (poolAppend s p).proposals).take 3) with _ | r
        · rw [hc] at hce
          cases hce
        · rw [hc] at hce
          simp only [evaluate_improvement, if_true] at hce
          cases hce
          simp [apply_new_rule]
  · rw [propose_rule_gate_false (by simpa using hg)]
    exact hlt

/-- C10: pool-size invariant. Along any sequence of `propose_rule` calls
that hit no internal error (each call returns `true` or fails a validation
gate), every state has fewer than 5 pooled proposals; and a call that is
accepted from a 4-proposal pool always triggers evolution and leaves the
pool empty. -/
theorem pool_size_invariant :
    (∀ s, EvoReachableSafe s → s.proposals.length < 5) ∧
    (∀ now s p, s.proposals.length = 4 → (propose_rule now s p).2 = true →
      ((propose_rule now s p).1).proposals = []) := by
  constructor
  · intro s hs
    induction hs with
    | init => decide
    | step now s p hr hok ih => exact propose_rule_pool_lt now s p ih hok
  · intro now s p hlen hacc
    by_cases hg : validate_proposal s p = true
    · have he := @propose_rule_gate_true now s p hg
      rcases hce : check_evolution now (poolAppend s p) with _ | s3
      · rw [hce] at he
        rw [he] at hacc
        simp at hacc
      · rw [hce] at he
        rw [he]
        have hlen5 : ¬ (poolAppend s p).proposals.length < 5 := by
          simp [poolAppend, hlen]
        unfold check_evolution at hce
        rw [if_neg hlen5] at hce
        simp only at hce
        rcases hc : create_new_rule now
            ((sortedByFitness (poolAppend s p).proposals).take 3) with _ | r
        · rw [hc] at hce
          cases hce
        · rw [hc] at hce
          simp only [evaluate_improvement, if_true] at hce
          cases hce
          simp [apply_new_rule]
    · rw [propose_rule_gate_false (by simpa using hg)] at hacc
      simp at hacc

theorem pool_size_invariant_witness :
    EvolutionaryConsensus.init.proposals.length < 5 ∧
    pool4.proposals.length = 4 ∧
    ((propose_rule 9 pool4 propQ3).1).proposals = [] :=
  ⟨pool_size_invariant.1 EvolutionaryConsensus.init EvoReachableSafe.init,
   by decide,
   pool_size_invariant.2 9 pool4 propQ3 (by decide) (by decide)⟩

/-- C9 (counterexample): the sanity check does not gate block creation. For
an update whose largest weight delta is 2.0 (over the 1.0 limit),
`_validate_changes` does reject the payload — but `learn_from_experience`
still creates a block carrying exactly that payload: the ledger grows from
0 to 1 blocks. -/
theorem sanity_check_does_not_gate_creation :
    GemmaNode.validate_changes_check
      ((GemmaNode.learn_from_experience (fun s => s) "n1" (Consensus.init 3) 0
          [] badModelUpdates).2).changes = false ∧
    ((GemmaNode.learn_from_experience (fun s => s) "n1" (Consensus.init 3) 0
          [] badModelUpdates).1).blocks.length = 1 := by
  refine ⟨by decide, rfl⟩

/-- C9 (amended): the producer-spec limits are enforced by the node-side
check on the validation path, not at block creation. `_validate_changes`
returns `false` whenever the largest `weight_updates` value exceeds 1.0 or
the reported learning rate exceeds 0.1, and `true` when both are within
limits; a failing check makes `validate_changes` cast no vote and leave the
consensus untouched; `learn_from_experience` creates a block
unconditionally. -/
theorem sanity_check_semantics :
    (∀ (changes : Changes) (updates wu : List (String × Val)),
      dlookup changes "model_updates" = some (.dict updates) →
      dlookup updates "weight_updates" = some (.dict wu) →
      1 < maxValues wu →
      GemmaNode.validate_changes_check changes = false) ∧
    (∀ (changes : Changes) (updates metrics : List (String × Val)),
      dlookup changes "model_updates" = some (.dict updates) →
      dlookup updates "performance_metrics" = some (.dict metrics) →
      (1 : Rat) / 10 < numGet metrics "learning_rate" 0 →
      GemmaNode.validate_changes_check changes = false) ∧
    (∀ (changes : Changes) (updates : List (String × Val)),
      dlookup changes "model_updates" = some (.dict updates) →
      (∀ wu, dlookup updates "weight_updates" = some (.dict wu) →
        maxValues wu ≤ 1) →
      (∀ m, dlookup updates "performance_metrics" = some (.dict m) →
        numGet m "learning_rate" 0 ≤ (1 : Rat) / 10) →
      GemmaNode.validate_changes_check changes = true) ∧
    (∀ (node : GemmaNode.NodeState) (c : Consensus) (block : Block),
      GemmaNode.validate_changes_check block.changes = false →
      GemmaNode.validate_changes node c block = (node, c, false)) ∧
    (∀ (hashFn : String → String) (nid : String) (c : Consensus) (t : Nat)
      (e mu : List (String × Val)),
      ((GemmaNode.learn_from_experience hashFn nid c t e mu).1).blocks.length
        = c.blocks.length + 1) := by
  refine ⟨?_, ?_, ?_, ?_, ?_⟩
  · intro changes updates wu h1 h2 hmax
    simp only [GemmaNode.validate_changes_check, h1, h2]
    have hf : decide (¬ maxValues wu > 1) = false := by
      simp only [decide_eq_false_iff_not, not_not]
      exact hmax
    rw [hf, Bool.false_and]
  · intro changes updates metrics h1 h2 hlr
    simp only [GemmaNode.validate_changes_check, h1, h2]
    have hf : decide (¬ numGet metrics "learning_rate" 0 > (1 : Rat) / 10)
        = false := by
      simp only [decide_eq_false_iff_not, not_not]
      exact hlr
    rw [hf, Bool.and_false]
  · intro changes updates h1 hwu hm
    simp only [GemmaNode.validate_changes_check, h1]
    rw [Bool.and_eq_true]
    constructor
    · split
      · next wu heq =>
        simp only [decide_eq_true_eq]
        exact not_lt.mpr (hwu wu heq)
      · rfl
    · split
      · next m heq =>
        simp only [decide_eq_true_eq]
        exact not_lt.mpr (hm m heq)
      · rfl
  · intro node c block hchk
    unfold GemmaNode.validate_changes
    cases hb : node.is_validator with
    | false => simp [hb]
    | true => simp [hb, hchk]
  · intro hashFn nid c t e mu
    unfold GemmaNode.learn_from_experience Consensus.create_block
    simp

theorem sanity_check_semantics_witness :
    GemmaNode.validate_changes_check
      [("experience", Val.dict []), ("model_updates", Val.dict badModelUpdates),
       ("timestamp", Val.num 0)] = false ∧
    ((GemmaNode.learn_from_experience (fun s => s) "n1" (Consensus.init 3) 0 []
        badModelUpdates).1).blocks.length = (Consensus.init 3).blocks.length + 1 :=
  ⟨sanity_check_semantics.1 _ badModelUpdates [("layer0", Val.num 2)]
      rfl rfl (by decide),
   sanity_check_semantics.2.2.2.2 (fun s => s) "n1" (Consensus.init 3) 0 []
      badModelUpdates⟩
